import Mathlib

/-!
Verification of the pull-request mirror (conversion layer, reconciler/writer,
retry and pagination drivers, webhook receiver, lifecycle sweep).

Go strings are modelled as lists of characters (`GoStr`); Go `nil`-able
pointers as `Option`; machine integers as `Nat`/`Int` with explicit
`% 2 ^ 32` where a conversion to `uint32` happens in the source.
-/

namespace PRMirror

/-- Go strings, modelled as lists of characters. -/
abbrev GoStr := List Char

/-- Model of `strings.Split(s, sep)` for a single-character separator:
scan left to right, breaking at each occurrence of the separator. -/
def splitCharAux (sep : Char) (acc : GoStr) : GoStr → List GoStr
  | [] => [acc.reverse]
  | c :: rest =>
      if c = sep then acc.reverse :: splitCharAux sep [] rest
      else splitCharAux sep (c :: acc) rest

/-- Model of `strings.Split(s, "\n")` as used by `commentStartLine`. -/
def splitLines (s : GoStr) : List GoStr := splitCharAux '\n' [] s

/-- Model of `strings.Split(path, "/")` as used by the webhook handler. -/
def splitSlash (s : GoStr) : List GoStr := splitCharAux '/' [] s

/-- Model of `strings.Split(header, ", ")` (the comma-space scope delimiter in
`validate`): scan left to right for non-overlapping occurrences of `", "`. -/
def splitCommaSpaceAux (acc : GoStr) : GoStr → List GoStr
  | ',' :: ' ' :: rest => acc.reverse :: splitCommaSpaceAux [] rest
  | c :: rest => splitCommaSpaceAux (c :: acc) rest
  | [] => [acc.reverse]

/-- Model of `strings.Split(header, ", ")`. -/
def splitCommaSpace (s : GoStr) : List GoStr := splitCommaSpaceAux [] s

/-- Membership test by equality, the model of the Go pattern
`for _, e := range l { if e == x { found = true } }`. -/
def containsEq {α : Type} [DecidableEq α] (l : List α) (x : α) : Bool :=
  l.any (fun e => decide (e = x))

instance {ε α : Type} [DecidableEq ε] [DecidableEq α] : DecidableEq (Except ε α)
  | .ok a, .ok b => decidable_of_iff (a = b) (by simp)
  | .ok _, .error _ => isFalse (by simp)
  | .error _, .ok _ => isFalse (by simp)
  | .error e, .error f => decidable_of_iff (e = f) (by simp)

/-! ## Data model

The review formats come from the external review library; the spec (section 3)
fixes the fields the mirror reads and writes, and the mirror source compares
them with Go struct equality.  Pointer-valued fields (`*Location`, `*Range`)
are modelled as `Option` values; Go compares those pointers by address, but in
`CommentsOverlap` every address comparison is subsumed by the field-by-field
comparisons that follow it, so option-value equality is observationally the
same relation. -/

/-- Model of `comment.Location` (commit, path, optional range start line). -/
structure Location where
  commit : GoStr
  path : GoStr
  range : Option Nat
deriving DecidableEq

/-- Model of `comment.Comment`: the fields the mirror reads, writes and
compares (timestamp, author, parent hash, description, optional location). -/
structure Comment where
  timestamp : GoStr
  author : GoStr
  parent : GoStr
  description : GoStr
  location : Option Location
deriving DecidableEq

/-- Model of `request.Request`: the fields `ConvertPullRequest` produces and
`RequestsOverlap` compares. -/
structure Request where
  timestamp : GoStr
  reviewRef : GoStr
  targetRef : GoStr
  requester : GoStr
  description : GoStr
  baseCommit : GoStr
deriving DecidableEq

/-- Model of `ci.Report` (timestamp, URL, status, agent), compared by Go
struct equality in `WriteNewReports`. -/
structure Report where
  timestamp : GoStr
  url : GoStr
  status : GoStr
  agent : GoStr
deriving DecidableEq

/-- Model of `review.Review` as the writer uses it: a revision, the converted
request, and the converted comments (content hashes of threads play no role
in `WriteNewReviews` or `WriteNewComments` and are omitted). -/
structure Review where
  revision : GoStr
  request : Request
  comments : List Comment

/-! ## The comment and request overlap relations (mirror/output.go) -/

/-- Embeds `quoteComment` (output.go): the string `"<author>:\n\n<description>"`. -/
def quoteComment (c : Comment) : GoStr := c.author ++ ":\n\n".data ++ c.description

/-- Embeds `commentDescriptionsMatch` (output.go): both the authors and the
descriptions must be equal. -/
def commentDescriptionsMatch (a b : Comment) : Bool :=
  decide (a.author = b.author) && decide (a.description = b.description)

/-- Embeds `commentDescriptionsOverlap` (output.go). -/
def commentDescriptionsOverlap (a b : Comment) : Bool :=
  commentDescriptionsMatch a b ||
  decide (a.description = quoteComment b) ||
  decide (quoteComment a = b.description)

/-- Embeds `commentLocationPathsMatch` (output.go). -/
def commentLocationPathsMatch (a b : Location) : Bool :=
  decide (a = b) || (decide (a.commit = b.commit) && decide (a.path = b.path))

/-- Embeds `commentLocationsOverlap` (output.go).  The `none`/`none` case of a
disjunct whose other side dereferences the location is unreachable in the
source (the first disjunct already returned `true`); it is mapped to `false`. -/
def commentLocationsOverlap (a b : Comment) : Bool :=
  decide (a.location = b.location) ||
  (a.location.isNone && (match b.location with
    | some l => decide (l.path = [])
    | none => false)) ||
  (b.location.isNone && (match a.location with
    | some l => decide (l.path = [])
    | none => false)) ||
  (match a.location, b.location with
    | some la, some lb => commentLocationPathsMatch la lb
    | _, _ => false)

/-- Embeds `CommentsOverlap` (output.go). -/
def CommentsOverlap (a b : Comment) : Bool :=
  decide (a = b) || (commentLocationsOverlap a b && commentDescriptionsOverlap a b)

/-- Embeds `RequestsOverlap` (output.go): review ref, target ref, description
and base commit must all agree; timestamps and reviewers are ignored. -/
def RequestsOverlap (a b : Request) : Bool :=
  decide (a.reviewRef = b.reviewRef) && decide (a.targetRef = b.targetRef) &&
  decide (a.description = b.description) && decide (a.baseCommit = b.baseCommit)

/-! ## The notes store and the writers (mirror/output.go)

Modelled from the spec: the source-control collaborator (section 6) exposes
`GetNotes(ref, commit)` and `AppendNote(ref, commit, bytes)`, the bytes
appended being the reversible JSON serialization of a report, request or
comment; `ParseAllValid` inverts that serialization.  The store is therefore
modelled as, per notes ref, a map from commit hash to the list of parsed
entries, with `AppendNote` appending one entry. -/

/-- The notes attached under one notes ref: an association list from commit
hash to the entries appended at that commit, in append order. -/
abbrev NotesMap (α : Type) := List (GoStr × List α)

/-- Model of `ParseAllValid(repo.GetNotes(ref, commit))`: the entries stored
at a commit (empty when none). -/
def getNotes {α : Type} : NotesMap α → GoStr → List α
  | [], _ => []
  | (k, vs) :: rest, commit => if k = commit then vs else getNotes rest commit

/-- Model of `repo.AppendNote(ref, commit, note)`: append one entry at the
commit. -/
def appendNote {α : Type} : NotesMap α → GoStr → α → NotesMap α
  | [], commit, v => [(commit, [v])]
  | (k, vs) :: rest, commit, v =>
      if k = commit then (k, vs ++ [v]) :: rest
      else (k, vs) :: appendNote rest commit v

/-- The local clone's notes state: the three notes refs the reconciler uses
(CI reports, review requests, review comments), each keyed by commit hash. -/
structure RepoState where
  reports : NotesMap Report
  requests : NotesMap Request
  comments : NotesMap Comment

/-- Append a CI report note at a commit. -/
def appendReport (st : RepoState) (commit : GoStr) (r : Report) : RepoState :=
  { st with reports := appendNote st.reports commit r }

/-- Append a review request note at a revision. -/
def appendRequest (st : RepoState) (rev : GoStr) (r : Request) : RepoState :=
  { st with requests := appendNote st.requests rev r }

/-- Append a review comment note at a revision. -/
def appendComment (st : RepoState) (rev : GoStr) (c : Comment) : RepoState :=
  { st with comments := appendNote st.comments rev c }

/-- Embeds the inner loop of `WriteNewReports` (output.go): for each fetched
report, append it unless the list of pre-existing reports (read once, before
the loop) contains an equal one. -/
def writeReportsForCommit (existing : List Report) (commit : GoStr) :
    List Report → RepoState → RepoState
  | [], st => st
  | r :: rest, st =>
      writeReportsForCommit existing commit rest
        (if containsEq existing r then st else appendReport st commit r)

/-- Embeds `WriteNewReports` (output.go): for each commit of the fetched map,
read the existing reports at that commit, then append the missing ones. -/
def WriteNewReports : List (GoStr × List Report) → RepoState → RepoState
  | [], st => st
  | (commit, commitReports) :: rest, st =>
      WriteNewReports rest
        (writeReportsForCommit (getNotes st.reports commit) commit commitReports st)

/-- Embeds the loop of `WriteNewComments` (output.go): for each comment of the
review, append it unless some pre-existing comment (read once, before the
loop) overlaps it. -/
def writeCommentList (existing : List Comment) (rev : GoStr) :
    List Comment → RepoState → RepoState
  | [], st => st
  | c :: rest, st =>
      writeCommentList existing rev rest
        (if existing.any (fun e => CommentsOverlap e c) then st
         else appendComment st rev c)

/-- Embeds `WriteNewComments` (output.go). -/
def WriteNewComments (r : Review) (st : RepoState) : RepoState :=
  writeCommentList (getNotes st.comments r.revision) r.revision r.comments st

/-- Embeds `WriteNewReviews` (output.go): for each review, append its request
unless an existing request at the revision overlaps it, then write the
review's comments. -/
def WriteNewReviews : List Review → RepoState → RepoState
  | [], st => st
  | r :: rest, st =>
      WriteNewReviews rest
        (WriteNewComments r
          (if (getNotes st.requests r.revision).any
              (fun e => RequestsOverlap e r.request) then st
           else appendRequest st r.revision r.request))

/-- The write pass of one mirror run: reports first, then reviews (each
review's request before its comments), as `initialize` and the batch tool
invoke the two writers. -/
def writePass (reportsMap : List (GoStr × List Report)) (reviews : List Review)
    (st : RepoState) : RepoState :=
  WriteNewReviews reviews (WriteNewReports reportsMap st)

/-! ### Writer lemmas: the writers only append, and a second pass appends
nothing -/

/-- Pointwise containment of notes: every entry of `s` is still present in
`t`. -/
def notesLE (s t : RepoState) : Prop :=
  (∀ k x, x ∈ getNotes s.reports k → x ∈ getNotes t.reports k) ∧
  (∀ k x, x ∈ getNotes s.requests k → x ∈ getNotes t.requests k) ∧
  (∀ k x, x ∈ getNotes s.comments k → x ∈ getNotes t.comments k)

/-- After `WriteNewReports`, every fetched report is present at its commit. -/
def reportsDone (m : List (GoStr × List Report)) (st : RepoState) : Prop :=
  ∀ p ∈ m, ∀ r ∈ p.2, r ∈ getNotes st.reports p.1

/-- After `WriteNewReviews`, every review's request and comments are
represented, up to the overlap relations. -/
def reviewDone (rv : Review) (st : RepoState) : Prop :=
  (∃ e ∈ getNotes st.requests rv.revision, RequestsOverlap e rv.request = true) ∧
  (∀ c ∈ rv.comments, ∃ e ∈ getNotes st.comments rv.revision, CommentsOverlap e c = true)

def reviewsDone (rs : List Review) (st : RepoState) : Prop :=
  ∀ rv ∈ rs, reviewDone rv st

/-! ## Conversion layer (mirror/conversions.go) -/

/-- Errors of the conversion layer (conversions.go): the three sentinel
errors plus the two formatted `commentStartLine` errors and the
`strconv.Atoi` range error. -/
inductive MirrorError
  | noTimestamp
  | invalidState
  | insufficientInfo
  | insufficientHunk (hunk : GoStr)
  | malformedHunkLine (line : GoStr)
  | atoiRange (digits : GoStr)
deriving DecidableEq

/-- Embeds `ConvertTime` (conversions.go): `fmt.Sprintf("%10d", t.Unix())`,
the decimal rendering right-justified in a field of minimum width 10.
A `time.Time` is modelled by its Unix-seconds value. -/
def ConvertTime (t : Int) : GoStr :=
  let s := (toString t).data
  List.replicate (10 - s.length) ' ' ++ s

/-- Model of `github.User`: the login field read by the conversions. -/
structure GithubUser where
  login : Option GoStr
deriving DecidableEq

/-- Model of `github.IssueComment`: the fields `ConvertIssueComment` reads.
Times are modelled by their Unix-seconds values. -/
structure IssueComment where
  user : Option GithubUser
  body : Option GoStr
  createdAt : Option Int
  updatedAt : Option Int
deriving DecidableEq

/-- Embeds `ConvertIssueComment` (conversions.go): reject when user login,
body, or both times are absent; set the timestamp from `UpdatedAt` and then
overwrite it from `CreatedAt` when present. -/
def ConvertIssueComment (ic : IssueComment) : Except MirrorError Comment :=
  if ic.user.isNone || (ic.user.bind GithubUser.login).isNone || ic.body.isNone ||
      (ic.updatedAt.isNone && ic.createdAt.isNone) then
    .error .insufficientInfo
  else
    let ts : GoStr := []
    let ts := match ic.updatedAt with
      | some t => ConvertTime t
      | none => ts
    let ts := match ic.createdAt with
      | some t => ConvertTime t
      | none => ts
    .ok { timestamp := ts
          author := (ic.user.bind GithubUser.login).getD []
          parent := []
          description := ic.body.getD []
          location := none }

/-- Model of a pull request branch (`pr.Base`): ref and SHA. -/
structure PullRequestBranch where
  ref : Option GoStr
  sha : Option GoStr
deriving DecidableEq

/-- Model of `github.PullRequest`: the fields `ConvertPullRequest` reads. -/
structure PullRequest where
  number : Option Int
  user : Option GithubUser
  base : Option PullRequestBranch
  title : Option GoStr
  body : Option GoStr
  createdAt : Option Int
  updatedAt : Option Int
deriving DecidableEq

/-- Embeds `ConvertPullRequest` (conversions.go).  The source dereferences
`pr.User` without a nil check (a nil user would fault); the model folds that
case into the insufficient-info rejection, and no claim exercises it. -/
def ConvertPullRequest (pr : PullRequest) : Except MirrorError Request :=
  if pr.number.isNone || (pr.user.bind GithubUser.login).isNone ||
      pr.base.isNone || (pr.base.bind PullRequestBranch.ref).isNone ||
      (pr.base.bind PullRequestBranch.sha).isNone ||
      (pr.createdAt.isNone && pr.updatedAt.isNone) then
    .error .insufficientInfo
  else
    let ts := match pr.updatedAt with
      | some t => ConvertTime t
      | none => ConvertTime (pr.createdAt.getD 0)
    let baseRef := (pr.base.bind PullRequestBranch.ref).getD []
    let targetRef :=
      if "refs/heads".data.isPrefixOf baseRef then baseRef
      else "refs/heads/".data ++ baseRef
    let description := match pr.title with
      | some t => t
      | none => []
    let description := match pr.body with
      | some b => if b ≠ [] then description ++ "\n\n".data ++ b else description
      | none => description
    .ok { timestamp := ts
          reviewRef := "refs/pull/".data ++ (toString (pr.number.getD 0)).data
            ++ "/head".data
          targetRef := targetRef
          requester := (pr.user.bind GithubUser.login).getD []
          description := description
          baseCommit := (pr.base.bind PullRequestBranch.sha).getD [] }

/-! ## Diff-hunk start line (commentStartLine, conversions.go) -/

/-- The POSIX digit class used by the hunk-header pattern. -/
def isGoDigit (c : Char) : Bool := 48 ≤ c.toNat && c.toNat ≤ 57

/-- Split a string into its maximal leading digit run and the remainder. -/
def takeDigits : GoStr → GoStr × GoStr
  | [] => ([], [])
  | c :: rest =>
      if isGoDigit c then
        let (d, r) := takeDigits rest
        (c :: d, r)
      else ([], c :: rest)

/-- Consume a literal, or fail. -/
def dropLit (lit s : GoStr) : Option GoStr :=
  if lit.isPrefixOf s then some (s.drop lit.length) else none

/-- Consume the optional `,<digits>` group of the hunk-header pattern.  The
group is taken exactly when a comma followed by a digit is next; taking it
can never make the rest of the pattern fail where skipping it would succeed,
because the pattern continues with a space, so the greedy regex semantics are
deterministic here. -/
def dropCommaDigits (s : GoStr) : GoStr :=
  match s with
  | ',' :: rest =>
      let (d, r) := takeDigits rest
      if d = [] then s else r
  | _ => s

/-- Match the hunk-header pattern
`@@ -<digits>(,<digits>)? \+<digits>(,<digits>)? @@` at the start of the
string, returning the digit string of the third capture group (the
right-hand-side start line). -/
def parseHunkAt (s : GoStr) : Option GoStr :=
  match dropLit "@@ -".data s with
  | none => none
  | some s1 =>
      let (d1, s2) := takeDigits s1
      if d1 = [] then none
      else
        match dropLit " +".data (dropCommaDigits s2) with
        | none => none
        | some s4 =>
            let (d3, s5) := takeDigits s4
            if d3 = [] then none
            else
              match dropLit " @@".data (dropCommaDigits s5) with
              | none => none
              | some _ => some d3

/-- Model of `FindStringSubmatch` for the hunk-header pattern: the leftmost
position at which the pattern matches, if any. -/
def findHunkHeader : GoStr → Option GoStr
  | [] => none
  | c :: rest =>
      match parseHunkAt (c :: rest) with
      | some d => some d
      | none => findHunkHeader rest

/-- The numeric value of a digit string, most significant digit first. -/
def digitsToNatAux (acc : Nat) : GoStr → Nat
  | [] => acc
  | c :: rest => digitsToNatAux (10 * acc + (c.toNat - 48)) rest

/-- The numeric value of a digit string. -/
def digitsToNat (d : GoStr) : Nat := digitsToNatAux 0 d

/-- Model of `strconv.Atoi` on a digit string (64-bit platform): the value,
or a range error when it exceeds the signed 64-bit maximum. -/
def atoiDigits (d : GoStr) : Option Nat :=
  if digitsToNat d ≤ 9223372036854775807 then some (digitsToNat d) else none

/-- Embeds `commentStartLine` (conversions.go), as a function of the
dereferenced `DiffHunk` string: split on newlines, require at least two
lines, match the hunk-header pattern in the first line, `Atoi` the
right-hand-side start line, add one for each subsequent line that does not
begin with `-`, and truncate to `uint32`. -/
def commentStartLine (diffHunk : GoStr) : Except MirrorError Nat :=
  let diffLines := splitLines diffHunk
  if diffLines.length < 2 then .error (.insufficientHunk diffHunk)
  else
    match findHunkHeader (diffLines.headD []) with
    | none => .error (.malformedHunkLine (diffLines.headD []))
    | some d =>
        match atoiDigits d with
        | none => .error (.atoiRange d)
        | some rl =>
            let cnt := (diffLines.drop 1).countP (fun l => !("-".data.isPrefixOf l))
            .ok ((rl + cnt) % 4294967296)

/-! ## Scope validation (the lifecycle validate operation)

Two source variants exist: the live one recognizes `admin:repo_hook` in its
scope switch, the legacy appspot one does not. -/

/-- Embeds the scope-flag loop of the live `validate`: the switch sets
`hasRepo` on `repo` and `hasWriteRepoHook` on either `admin:repo_hook` or
`write:repo_hook`. -/
def scopeFlagsLive (scopes : List GoStr) : Bool × Bool :=
  scopes.foldl (fun fl scope =>
    if scope = "repo".data then (true, fl.2)
    else if scope = "admin:repo_hook".data then (fl.1, true)
    else if scope = "write:repo_hook".data then (fl.1, true)
    else fl) (false, false)

/-- Embeds the scope-flag loop of the legacy `validate`: the switch sets
`hasWriteRepoHook` only on `write:repo_hook`. -/
def scopeFlagsLegacy (scopes : List GoStr) : Bool × Bool :=
  scopes.foldl (fun fl scope =>
    if scope = "repo".data then (true, fl.2)
    else if scope = "write:repo_hook".data then (fl.1, true)
    else fl) (false, false)

/-- Embeds the missing-scope listing of `validate` (both variants). -/
def missingScopesMessage (hasRepo hasHook : Bool) : GoStr :=
  if !hasRepo && !hasHook then "repo, write:repo_hook".data
  else if !hasRepo then "repo".data
  else "write:repo_hook".data

/-- The outcome of the scope-check stage of `validate`: advance, or set the
record to Error with the listed missing scopes. -/
inductive ScopeCheckResult
  | pass
  | failMissing (missing : GoStr)
deriving DecidableEq

/-- Embeds the scope-check stage of the live `validate` on a granted-scopes
header value: split on comma-space, run the flag loop, fail with the missing
scopes or advance. -/
def validateScopeCheckLive (header : GoStr) : ScopeCheckResult :=
  let fl := scopeFlagsLive (splitCommaSpace header)
  if !fl.1 || !fl.2 then .failMissing (missingScopesMessage fl.1 fl.2) else .pass

/-- Embeds the scope-check stage of the legacy `validate`. -/
def validateScopeCheckLegacy (header : GoStr) : ScopeCheckResult :=
  let fl := scopeFlagsLegacy (splitCommaSpace header)
  if !fl.1 || !fl.2 then .failMissing (missingScopesMessage fl.1 fl.2) else .pass

/-! ## Webhook receiver (app/hooks.go) -/

/-- The repository record fields the hook handler reads. -/
structure RepoStorageData where
  hookSecret : GoStr
deriving DecidableEq

/-- The handler's observable outcome: the HTTP status it writes and the
asynchronous dispatch it performs (none for the two failure statuses). -/
inductive HookOutcome
  | badRequest
  | serverError
  | okPing
  | okMirror
deriving DecidableEq

/-- One incoming webhook delivery as the handler observes it: header values
(empty when the header is absent), the URL path, the body bytes (`none`
models a read failure) and the store lookup result (`none` models a store
failure). -/
structure HookRequest where
  signatureHeader : GoStr
  eventHeader : GoStr
  path : GoStr
  body : Option (List Nat)
  repoRecord : Option RepoStorageData

/-- A nibble of a hex digit, as `encoding/hex` accepts it (0-9, a-f, A-F). -/
def hexVal (c : Char) : Option Nat :=
  let n := c.toNat
  if 48 ≤ n ∧ n ≤ 57 then some (n - 48)
  else if 97 ≤ n ∧ n ≤ 102 then some (n - 87)
  else if 65 ≤ n ∧ n ≤ 70 then some (n - 55)
  else none

/-- Model of `hex.DecodeString`: pairs of hex digits to bytes; an odd length
or a non-hex character fails. -/
def hexDecode : GoStr → Option (List Nat)
  | [] => some []
  | [_] => none
  | c1 :: c2 :: rest =>
      match hexVal c1, hexVal c2, hexDecode rest with
      | some hi, some lo, some bs => some ((hi * 16 + lo) :: bs)
      | _, _, _ => none

/-- Embeds `hookHandler` (app/hooks.go), parameterized by the HMAC-SHA1
function of the Go standard library: check the signature header's shape,
hex-decode it, read the body, check the event header and the path shape,
look up the repository record, compare the keyed digest of the body with the
decoded signature, and dispatch ping or re-mirror on success. -/
def hookHandler (hmacSha1 : GoStr → List Nat → List Nat) (req : HookRequest) :
    HookOutcome :=
  if !("sha1=".data.isPrefixOf req.signatureHeader) ||
      (req.signatureHeader.drop 5).isEmpty then .badRequest
  else
    match hexDecode (req.signatureHeader.drop 5) with
    | none => .badRequest
    | some sig =>
        match req.body with
        | none => .serverError
        | some content =>
            if req.eventHeader.isEmpty then .badRequest
            else if (splitSlash req.path).length ≠ 4 then .badRequest
            else
              match req.repoRecord with
              | none => .serverError
              | some repo =>
                  if ¬ hmacSha1 repo.hookSecret content = sig then .badRequest
                  else if req.eventHeader = "ping".data then .okPing
                  else .okMirror

/-! ## Retry harness and pagination driver (the batch mirror fetcher) -/

/-- Model of `github.Response`: the fields the drivers read.  The rate-reset
instant only determines how long a quota sleep lasts; sleeps are counted, not
timed. -/
structure GhResponse where
  statusCode : Nat
  remaining : Nat
  lastPage : Nat
deriving DecidableEq

/-- A Go error value, identified by its message. -/
abbrev GoErr := GoStr

/-- The observable outcome of `executeRequest`: the returned error (`none`
for success), a nil-response dereference (the Go code reads
`resp.StatusCode` with `resp == nil`, which faults), or the
exceeded-max-retries error. -/
inductive ExecOutcome
  | done (e : Option GoErr)
  | nilDeref
  | tooManyAttempts
deriving DecidableEq

/-- Embeds the loop of `executeRequest`: `req i` is the result of the i-th
invocation of the wrapped request.  Arguments track the call index, the
remaining iterations of the bounded for loop, and the quota sleeps performed
so far; the result reports the outcome, the total calls and the total
sleeps. -/
def executeRequestAux (req : Nat → Option GhResponse × Option GoErr) :
    Nat → Nat → Nat → ExecOutcome × Nat × Nat
  | i, 0, sleeps => (.tooManyAttempts, i, sleeps)
  | i, fuel + 1, sleeps =>
      let (resp, err) := req i
      match err with
      | none => (.done none, i + 1, sleeps)
      | some e =>
          match resp with
          | none => (.nilDeref, i + 1, sleeps)
          | some r =>
              if r.statusCode ≠ 403 ∨ r.remaining ≠ 0 then
                (.done (some e), i + 1, sleeps)
              else executeRequestAux req (i + 1) fuel (sleeps + 1)

/-- The retry bound of the batch fetcher. -/
def maxRetryAttempts : Nat := 100

/-- Embeds `executeRequest` (batch mirror source). -/
def executeRequest (req : Nat → Option GhResponse × Option GoErr) :
    ExecOutcome × Nat × Nat :=
  executeRequestAux req 0 maxRetryAttempts 0

/-- Model of `github.ListOptions`: page and page size. -/
structure ListOptions where
  page : Nat
  perPage : Nat
deriving DecidableEq

/-- Outcome of one page's pass through `executeRequest` wrapped around the
`executeListRequest` closure. -/
inductive PageResult
  | ok (lastPage : Nat)
  | fail (e : GoErr)
  | closureNilResp
  | harnessNilResp
  | tooManyAttempts
deriving DecidableEq

/-- Embeds one page of `executeListRequest`: `executeRequest` applied to the
closure that calls the callback and, on success, records `resp.LastPage` as
the new `maxPage`.  The callback is modelled as a pure function of the list
options, so every retry of one page observes the same result. -/
def execPage (request : ListOptions → Option GhResponse × Option GoErr)
    (opts : ListOptions) : Nat → List ListOptions × PageResult
  | 0 => ([], .tooManyAttempts)
  | fuel + 1 =>
      let (resp, err) := request opts
      match err, resp with
      | none, some r => ([opts], .ok r.lastPage)
      | none, none => ([opts], .closureNilResp)
      | some _, none => ([opts], .harnessNilResp)
      | some e, some r =>
          if r.statusCode ≠ 403 ∨ r.remaining ≠ 0 then ([opts], .fail e)
          else
            let (calls, res) := execPage request opts fuel
            (opts :: calls, res)

/-- The outcome of `executeListRequest`: a nil return, a propagated error
(including the retry-ceiling error), an abnormal nil-response dereference, or
outer fuel exhaustion (the unbounded Go page loop still running). -/
inductive ListOutcome
  | ok
  | fail
  | abnormal
  | fuelOut
deriving DecidableEq

/-- Embeds the page loop of `executeListRequest`: `page` and `maxPage` start
at 1, each page runs through the retry harness with `PerPage = 100`, a
success updates `maxPage` from the response, and the loop ends when
`page > maxPage`.  Returns the list of callback invocations (in order) and
the outcome. -/
def execListAux (request : ListOptions → Option GhResponse × Option GoErr) :
    Nat → Nat → Nat → List ListOptions × ListOutcome
  | _, _, 0 => ([], .fuelOut)
  | page, maxPage, fuel + 1 =>
      if page > maxPage then ([], .ok)
      else
        let (calls, res) := execPage request ⟨page, 100⟩ maxRetryAttempts
        match res with
        | .ok newMax =>
            let (more, out) := execListAux request (page + 1) newMax fuel
            (calls ++ more, out)
        | .fail _ => (calls, .fail)
        | .tooManyAttempts => (calls, .fail)
        | _ => (calls, .abnormal)

/-- Embeds `executeListRequest` (batch mirror source); `fuel` bounds the
model of the unbounded Go loop. -/
def executeListRequest (request : ListOptions → Option GhResponse × Option GoErr)
    (fuel : Nat) : List ListOptions × ListOutcome :=
  execListAux request 1 1 fuel

/-! ## Restart sweep (the lifecycle supervisor, live variant) -/

/-- The external-world outcomes `validate` observes for one repository. -/
structure ValidateEnv where
  repoDataOk : Bool
  apiMetaOk : Bool
  scopesHeader : List GoStr
deriving DecidableEq

/-- The operations the sweep dispatches that the restart-sweep claim
counts. -/
inductive SweepOp
  | validateOp
  | createHooksOp
deriving DecidableEq

/-- Embeds the control flow of the live `validate` as the operations it
invokes: the `validate` invocation itself, then — when `getRepoData`, the
retried `APIMeta` call, the non-empty scopes header and the scope flags all
pass — the chained `createHooks` invocation at the end of its body (failures
of `Repositories.Get` and of `modifyRepoData` are logged without
returning). -/
def validateInvocations (env : ValidateEnv) : List SweepOp :=
  .validateOp ::
    (if env.repoDataOk then
      if env.apiMetaOk then
        match env.scopesHeader with
        | [] => []
        | h :: _ =>
            let fl := scopeFlagsLive (splitCommaSpace h)
            if !fl.1 || !fl.2 then [] else [.createHooksOp]
      else []
    else [])

/-- The repository record fields the sweep reads. -/
structure RepoRecord where
  user : GoStr
  repo : GoStr
  status : GoStr
deriving DecidableEq

/-- Embeds the per-record switch of `restartAbandonedOperations` (live
variant): Ready and Error are logged and skipped, Validating re-runs
`validate`, Initializing is only logged, Hooks Initializing re-runs
`createHooks`, anything else logs an error. -/
def sweepRecordOps (env : RepoRecord → ValidateEnv) (r : RepoRecord) :
    List SweepOp :=
  if r.status = "Ready".data then []
  else if r.status = "Error".data then []
  else if r.status = "Validating".data then validateInvocations (env r)
  else if r.status = "Initializing".data then []
  else if r.status = "Hooks Initializing".data then [.createHooksOp]
  else []

/-- Embeds `restartAbandonedOperations` (live variant) as the multiset of
operations it dispatches over the store's records; the goroutine
interleaving is abstracted to store order, which the claim's counts do not
depend on. -/
def restartAbandonedOperations (env : RepoRecord → ValidateEnv)
    (repos : List RepoRecord) : List SweepOp :=
  (repos.map (sweepRecordOps env)).flatten

/-- Whether a re-run `validate` passes all four guards of its body (in which
case its tail chains into `createHooks`). -/
def validatePasses (env : ValidateEnv) : Bool :=
  env.repoDataOk && env.apiMetaOk &&
    (match env.scopesHeader with
     | [] => false
     | h :: _ =>
         let fl := scopeFlagsLive (splitCommaSpace h)
         fl.1 && fl.2)

/-! ## Lemmas -/

theorem containsEq_eq_true_iff {α : Type} [DecidableEq α] (l : List α) (x : α) :
    containsEq l x = true ↔ x ∈ l := by
  simp [containsEq]

theorem CommentsOverlap_refl (c : Comment) : CommentsOverlap c c = true := by
  simp [CommentsOverlap]

theorem RequestsOverlap_refl (r : Request) : RequestsOverlap r r = true := by
  simp [RequestsOverlap]

theorem getNotes_appendNote_self {α : Type} (m : NotesMap α) (k : GoStr) (v : α) :
    getNotes (appendNote m k v) k = getNotes m k ++ [v] := by
  induction m with
  | nil => simp [getNotes, appendNote]
  | cons hd tl ih =>
      obtain ⟨k', vs⟩ := hd
      by_cases h : k' = k <;> simp [getNotes, appendNote, h, ih]

theorem getNotes_appendNote_other {α : Type} (m : NotesMap α) {k k' : GoStr}
    (v : α) (h : k' ≠ k) :
    getNotes (appendNote m k' v) k = getNotes m k := by
  induction m with
  | nil => simp [getNotes, appendNote, h]
  | cons hd tl ih =>
      obtain ⟨k'', vs⟩ := hd
      by_cases h2 : k'' = k'
      · subst h2
        simp [getNotes, appendNote, h]
      · simp [getNotes, appendNote, h2, ih]

theorem mem_getNotes_appendNote {α : Type} {m : NotesMap α} {k : GoStr} {x : α}
    (k' : GoStr) (v : α) (h : x ∈ getNotes m k) :
    x ∈ getNotes (appendNote m k' v) k := by
  by_cases hk : k' = k
  · subst hk; rw [getNotes_appendNote_self]; exact List.mem_append_left _ h
  · rwa [getNotes_appendNote_other _ _ hk]

theorem notesLE_refl (s : RepoState) : notesLE s s :=
  ⟨fun _ _ h => h, fun _ _ h => h, fun _ _ h => h⟩

theorem notesLE_trans {a b c : RepoState} (h1 : notesLE a b) (h2 : notesLE b c) :
    notesLE a c :=
  ⟨fun k x h => h2.1 k x (h1.1 k x h),
   fun k x h => h2.2.1 k x (h1.2.1 k x h),
   fun k x h => h2.2.2 k x (h1.2.2 k x h)⟩

theorem notesLE_appendReport (st : RepoState) (ck : GoStr) (r : Report) :
    notesLE st (appendReport st ck r) :=
  ⟨fun _ _x h => mem_getNotes_appendNote _ _ h, fun _ _ h => h, fun _ _ h => h⟩

theorem notesLE_appendRequest (st : RepoState) (rev : GoStr) (r : Request) :
    notesLE st (appendRequest st rev r) :=
  ⟨fun _ _ h => h, fun _ _x h => mem_getNotes_appendNote _ _ h, fun _ _ h => h⟩

theorem notesLE_appendComment (st : RepoState) (rev : GoStr) (c : Comment) :
    notesLE st (appendComment st rev c) :=
  ⟨fun _ _ h => h, fun _ _ h => h, fun _ _x h => mem_getNotes_appendNote _ _ h⟩

theorem notesLE_writeReportsForCommit (e : List Report) (ck : GoStr)
    (rs : List Report) (st : RepoState) :
    notesLE st (writeReportsForCommit e ck rs st) := by
  induction rs generalizing st with
  | nil => exact notesLE_refl st
  | cons r rest ih =>
      simp only [writeReportsForCommit]
      refine notesLE_trans ?_ (ih _)
      by_cases h : containsEq e r = true
      · rw [if_pos h]; exact notesLE_refl st
      · rw [if_neg h]; exact notesLE_appendReport st ck r

theorem notesLE_WriteNewReports (m : List (GoStr × List Report)) (st : RepoState) :
    notesLE st (WriteNewReports m st) := by
  induction m generalizing st with
  | nil => exact notesLE_refl st
  | cons p rest ih =>
      obtain ⟨ck, rs⟩ := p
      exact notesLE_trans (notesLE_writeReportsForCommit _ ck rs st) (ih _)

theorem notesLE_writeCommentList (e : List Comment) (rev : GoStr)
    (cs : List Comment) (st : RepoState) :
    notesLE st (writeCommentList e rev cs st) := by
  induction cs generalizing st with
  | nil => exact notesLE_refl st
  | cons c rest ih =>
      simp only [writeCommentList]
      refine notesLE_trans ?_ (ih _)
      by_cases h : e.any (fun x => CommentsOverlap x c) = true
      · rw [if_pos h]; exact notesLE_refl st
      · rw [if_neg h]; exact notesLE_appendComment st rev c

theorem notesLE_WriteNewComments (r : Review) (st : RepoState) :
    notesLE st (WriteNewComments r st) :=
  notesLE_writeCommentList _ _ _ st

theorem notesLE_WriteNewReviews (rs : List Review) (st : RepoState) :
    notesLE st (WriteNewReviews rs st) := by
  induction rs generalizing st with
  | nil => exact notesLE_refl st
  | cons r rest ih =>
      simp only [WriteNewReviews]
      refine notesLE_trans ?_ (notesLE_trans (notesLE_WriteNewComments r _) (ih _))
      by_cases h : (getNotes st.requests r.revision).any
          (fun e => RequestsOverlap e r.request) = true
      · rw [if_pos h]; exact notesLE_refl st
      · rw [if_neg h]; exact notesLE_appendRequest st r.revision r.request

theorem writeReportsForCommit_complete (e : List Report) (ck : GoStr)
    (rs : List Report) (st : RepoState)
    (he : ∀ x ∈ e, x ∈ getNotes st.reports ck) :
    ∀ r ∈ rs, r ∈ getNotes (writeReportsForCommit e ck rs st).reports ck := by
  induction rs generalizing st with
  | nil => intro r hr; cases hr
  | cons r0 rest ih =>
      intro r hr
      simp only [writeReportsForCommit]
      by_cases h : containsEq e r0 = true
      · rw [if_pos h]
        rcases List.mem_cons.mp hr with rfl | hr'
        · have hr0 : r ∈ e := (containsEq_eq_true_iff e r).mp h
          exact (notesLE_writeReportsForCommit e ck rest st).1 ck r (he r hr0)
        · exact ih st he r hr'
      · rw [if_neg h]
        have he' : ∀ x ∈ e, x ∈ getNotes (appendReport st ck r0).reports ck :=
          fun x hx => mem_getNotes_appendNote _ _ (he x hx)
        rcases List.mem_cons.mp hr with rfl | hr'
        · have hmem : r ∈ getNotes (appendReport st ck r).reports ck := by
            show r ∈ getNotes (appendNote st.reports ck r) ck
            rw [getNotes_appendNote_self]
            exact List.mem_append_right _ (List.mem_singleton.mpr rfl)
          exact (notesLE_writeReportsForCommit e ck rest _).1 ck r hmem
        · exact ih _ he' r hr'

theorem WriteNewReports_complete (m : List (GoStr × List Report)) (st : RepoState) :
    reportsDone m (WriteNewReports m st) := by
  induction m generalizing st with
  | nil => intro p hp; cases hp
  | cons p rest ih =>
      obtain ⟨ck, rs⟩ := p
      intro q hq
      simp only [WriteNewReports]
      rcases List.mem_cons.mp hq with rfl | hq'
      · intro r hr
        have h1 := writeReportsForCommit_complete (getNotes st.reports ck) ck rs st
          (fun x hx => hx) r hr
        exact (notesLE_WriteNewReports rest _).1 ck r h1
      · exact ih _ q hq'

theorem writeCommentList_complete (e : List Comment) (rev : GoStr)
    (cs : List Comment) (st : RepoState)
    (he : ∀ x ∈ e, x ∈ getNotes st.comments rev) :
    ∀ c ∈ cs, ∃ x ∈ getNotes (writeCommentList e rev cs st).comments rev,
      CommentsOverlap x c = true := by
  induction cs generalizing st with
  | nil => intro c hc; cases hc
  | cons c0 rest ih =>
      intro c hc
      simp only [writeCommentList]
      by_cases h : e.any (fun x => CommentsOverlap x c0) = true
      · rw [if_pos h]
        rcases List.mem_cons.mp hc with rfl | hc'
        · obtain ⟨x, hxe, hx⟩ := List.any_eq_true.mp h
          exact ⟨x, (notesLE_writeCommentList e rev rest st).2.2 rev x (he x hxe), hx⟩
        · exact ih st he c hc'
      · rw [if_neg h]
        have he' : ∀ x ∈ e, x ∈ getNotes (appendComment st rev c0).comments rev :=
          fun x hx => mem_getNotes_appendNote _ _ (he x hx)
        rcases List.mem_cons.mp hc with rfl | hc'
        · have hmem : c ∈ getNotes (appendComment st rev c).comments rev := by
            show c ∈ getNotes (appendNote st.comments rev c) rev
            rw [getNotes_appendNote_self]
            exact List.mem_append_right _ (List.mem_singleton.mpr rfl)
          exact ⟨c, (notesLE_writeCommentList e rev rest _).2.2 rev c hmem,
            CommentsOverlap_refl c⟩
        · exact ih _ he' c hc'

theorem WriteNewReviews_complete (rs : List Review) (st : RepoState) :
    reviewsDone rs (WriteNewReviews rs st) := by
  induction rs generalizing st with
  | nil => intro rv hrv; cases hrv
  | cons r rest ih =>
      intro rv hrv
      simp only [WriteNewReviews]
      rcases List.mem_cons.mp hrv with rfl | hrv'
      · by_cases h : (getNotes st.requests rv.revision).any
            (fun e => RequestsOverlap e rv.request) = true
        · rw [if_pos h]
          obtain ⟨x, hxe, hx⟩ := List.any_eq_true.mp h
          constructor
          · refine ⟨x, ?_, hx⟩
            exact (notesLE_trans (notesLE_WriteNewComments rv st)
              (notesLE_WriteNewReviews rest _)).2.1 rv.revision x hxe
          · intro c hc
            obtain ⟨x2, hx2, hover⟩ := writeCommentList_complete
              (getNotes st.comments rv.revision) rv.revision rv.comments st
              (fun x hx => hx) c hc
            exact ⟨x2, (notesLE_WriteNewReviews rest _).2.2 rv.revision x2 hx2, hover⟩
        · rw [if_neg h]
          have hreq : rv.request ∈
              getNotes (appendRequest st rv.revision rv.request).requests rv.revision := by
            show rv.request ∈ getNotes (appendNote st.requests rv.revision rv.request) rv.revision
            rw [getNotes_appendNote_self]
            exact List.mem_append_right _ (List.mem_singleton.mpr rfl)
          constructor
          · refine ⟨rv.request, ?_, RequestsOverlap_refl rv.request⟩
            exact (notesLE_trans (notesLE_WriteNewComments rv _)
              (notesLE_WriteNewReviews rest _)).2.1 rv.revision rv.request hreq
          · intro c hc
            obtain ⟨x2, hx2, hover⟩ := writeCommentList_complete
              (getNotes (appendRequest st rv.revision rv.request).comments rv.revision)
              rv.revision rv.comments (appendRequest st rv.revision rv.request)
              (fun x hx => hx) c hc
            exact ⟨x2, (notesLE_WriteNewReviews rest _).2.2 rv.revision x2 hx2, hover⟩
      · exact ih _ rv hrv'

theorem writeReportsForCommit_noop (e : List Report) (ck : GoStr)
    (rs : List Report) (st : RepoState) (h : ∀ r ∈ rs, containsEq e r = true) :
    writeReportsForCommit e ck rs st = st := by
  induction rs with
  | nil => rfl
  | cons r rest ih =>
      simp only [writeReportsForCommit]
      rw [if_pos (h r (List.mem_cons_self r rest))]
      exact ih fun x hx => h x (List.mem_cons_of_mem r hx)

theorem WriteNewReports_noop (m : List (GoStr × List Report)) (st : RepoState)
    (h : reportsDone m st) : WriteNewReports m st = st := by
  induction m with
  | nil => rfl
  | cons p rest ih =>
      obtain ⟨ck, rs⟩ := p
      simp only [WriteNewReports]
      rw [writeReportsForCommit_noop _ ck rs st
        (fun r hr => (containsEq_eq_true_iff _ r).mpr
          (h (ck, rs) (List.mem_cons_self _ rest) r hr))]
      exact ih fun q hq => h q (List.mem_cons_of_mem _ hq)

theorem writeCommentList_noop (e : List Comment) (rev : GoStr)
    (cs : List Comment) (st : RepoState)
    (h : ∀ c ∈ cs, e.any (fun x => CommentsOverlap x c) = true) :
    writeCommentList e rev cs st = st := by
  induction cs with
  | nil => rfl
  | cons c rest ih =>
      simp only [writeCommentList]
      rw [if_pos (h c (List.mem_cons_self c rest))]
      exact ih fun x hx => h x (List.mem_cons_of_mem c hx)

theorem WriteNewReviews_noop (rs : List Review) (st : RepoState)
    (h : reviewsDone rs st) : WriteNewReviews rs st = st := by
  induction rs with
  | nil => rfl
  | cons r rest ih =>
      simp only [WriteNewReviews]
      have hr := h r (List.mem_cons_self r rest)
      rw [if_pos (List.any_eq_true.mpr
        (by obtain ⟨x, hx, hov⟩ := hr.1; exact ⟨x, hx, hov⟩))]
      rw [show WriteNewComments r st = st from writeCommentList_noop _ _ _ st
        (fun c hc => List.any_eq_true.mpr
          (by obtain ⟨x, hx, hov⟩ := hr.2 c hc; exact ⟨x, hx, hov⟩))]
      exact ih fun q hq => h q (List.mem_cons_of_mem _ hq)

theorem writeReportsForCommit_requests (e : List Report) (ck : GoStr)
    (rs : List Report) (st : RepoState) :
    (writeReportsForCommit e ck rs st).requests = st.requests := by
  induction rs generalizing st with
  | nil => rfl
  | cons r rest ih =>
      simp only [writeReportsForCommit]
      rw [ih]
      by_cases h : containsEq e r = true
      · rw [if_pos h]
      · rw [if_neg h]; rfl

theorem writeReportsForCommit_comments (e : List Report) (ck : GoStr)
    (rs : List Report) (st : RepoState) :
    (writeReportsForCommit e ck rs st).comments = st.comments := by
  induction rs generalizing st with
  | nil => rfl
  | cons r rest ih =>
      simp only [writeReportsForCommit]
      rw [ih]
      by_cases h : containsEq e r = true
      · rw [if_pos h]
      · rw [if_neg h]; rfl

theorem WriteNewReports_requests (m : List (GoStr × List Report)) (st : RepoState) :
    (WriteNewReports m st).requests = st.requests := by
  induction m generalizing st with
  | nil => rfl
  | cons p rest ih =>
      obtain ⟨ck, rs⟩ := p
      simp only [WriteNewReports]
      rw [ih, writeReportsForCommit_requests]

theorem WriteNewReports_comments (m : List (GoStr × List Report)) (st : RepoState) :
    (WriteNewReports m st).comments = st.comments := by
  induction m generalizing st with
  | nil => rfl
  | cons p rest ih =>
      obtain ⟨ck, rs⟩ := p
      simp only [WriteNewReports]
      rw [ih, writeReportsForCommit_comments]

theorem writeCommentList_reports (e : List Comment) (rev : GoStr)
    (cs : List Comment) (st : RepoState) :
    (writeCommentList e rev cs st).reports = st.reports := by
  induction cs generalizing st with
  | nil => rfl
  | cons c rest ih =>
      simp only [writeCommentList]
      rw [ih]
      by_cases h : e.any (fun x => CommentsOverlap x c) = true
      · rw [if_pos h]
      · rw [if_neg h]; rfl

theorem WriteNewReviews_reports (rs : List Review) (st : RepoState) :
    (WriteNewReviews rs st).reports = st.reports := by
  induction rs generalizing st with
  | nil => rfl
  | cons r rest ih =>
      simp only [WriteNewReviews]
      rw [ih]
      show (writeCommentList _ _ _ _).reports = st.reports
      rw [writeCommentList_reports]
      by_cases h : (getNotes st.requests r.revision).any
          (fun e => RequestsOverlap e r.request) = true
      · rw [if_pos h]
      · rw [if_neg h]; rfl

theorem scopeFlagsLive_foldl (scopes : List GoStr) (fl : Bool × Bool) :
    scopes.foldl (fun fl scope =>
      if scope = "repo".data then (true, fl.2)
      else if scope = "admin:repo_hook".data then (fl.1, true)
      else if scope = "write:repo_hook".data then (fl.1, true)
      else fl) fl =
    (fl.1 || scopes.any (fun s => decide (s = "repo".data)),
     fl.2 || scopes.any (fun s => decide (s = "admin:repo_hook".data) ||
                                  decide (s = "write:repo_hook".data))) := by
  induction scopes generalizing fl with
  | nil => simp
  | cons s rest ih =>
      simp only [List.foldl_cons, List.any_cons, ih]
      by_cases h1 : s = "repo".data
      · have h2 : ¬ s = "admin:repo_hook".data := by subst h1; decide
        have h3 : ¬ s = "write:repo_hook".data := by subst h1; decide
        simp [h1, h2, h3]
      · by_cases h2 : s = "admin:repo_hook".data
        · have h3 : ¬ s = "write:repo_hook".data := by subst h2; decide
          simp [h1, h2, h3, Bool.or_assoc]
        · by_cases h3 : s = "write:repo_hook".data
          · simp [h1, h2, h3, Bool.or_assoc]
          · simp [h1, h2, h3]

theorem scopeFlagsLive_eq (scopes : List GoStr) :
    scopeFlagsLive scopes =
      (scopes.any (fun s => decide (s = "repo".data)),
       scopes.any (fun s => decide (s = "admin:repo_hook".data) ||
                            decide (s = "write:repo_hook".data))) := by
  unfold scopeFlagsLive
  rw [scopeFlagsLive_foldl]
  simp

theorem scopeCheckIf_pass_iff (a b : Bool) (m : GoStr) :
    ((if !a || !b then ScopeCheckResult.failMissing m else .pass) = .pass) ↔
      (a = true ∧ b = true) := by
  cases a <;> cases b <;> simp

theorem validateScopeCheckLive_pass_iff (header : GoStr) :
    validateScopeCheckLive header = .pass ↔
      ("repo".data ∈ splitCommaSpace header ∧
        ("write:repo_hook".data ∈ splitCommaSpace header ∨
         "admin:repo_hook".data ∈ splitCommaSpace header)) := by
  simp only [validateScopeCheckLive, scopeFlagsLive_eq]
  rw [scopeCheckIf_pass_iff]
  constructor
  · rintro ⟨h1, h2⟩
    obtain ⟨x, hx, hpx⟩ := List.any_eq_true.mp h1
    obtain ⟨y, hy, hpy⟩ := List.any_eq_true.mp h2
    simp only [decide_eq_true_eq] at hpx
    simp only [Bool.or_eq_true, decide_eq_true_eq] at hpy
    subst hpx
    refine ⟨hx, ?_⟩
    rcases hpy with h | h
    · right; rw [← h]; exact hy
    · left; rw [← h]; exact hy
  · rintro ⟨h1, h2⟩
    constructor
    · exact List.any_eq_true.mpr ⟨_, h1, by simp⟩
    · rcases h2 with h | h
      · exact List.any_eq_true.mpr ⟨_, h, by simp⟩
      · exact List.any_eq_true.mpr ⟨_, h, by simp⟩

theorem validateInvocations_eq (e : ValidateEnv) :
    validateInvocations e =
      .validateOp :: (if validatePasses e then [.createHooksOp] else []) := by
  obtain ⟨rd, am, sh⟩ := e
  unfold validateInvocations validatePasses
  cases rd <;> cases am <;> simp
  cases sh with
  | nil => simp
  | cons h t =>
      rcases hfl : scopeFlagsLive (splitCommaSpace h) with ⟨b1, b2⟩
      cases b1 <;> cases b2 <;> simp [hfl]

theorem executeRequestAux_first (req : Nat → Option GhResponse × Option GoErr)
    (i fuel sleeps : Nat) (r : GhResponse) (e : GoErr)
    (h0 : req i = (some r, some e)) (hcond : r.statusCode ≠ 403 ∨ r.remaining ≠ 0) :
    executeRequestAux req i (fuel + 1) sleeps = (.done (some e), i + 1, sleeps) := by
  simp only [executeRequestAux, h0]
  rw [if_pos hcond]

theorem executeRequestAux_no_nilDeref (req : Nat → Option GhResponse × Option GoErr)
    (hpre : ∀ i, (req i).2.isSome = true → (req i).1.isSome = true) :
    ∀ fuel i sleeps, (executeRequestAux req i fuel sleeps).1 ≠ .nilDeref := by
  intro fuel
  induction fuel with
  | zero => intro i sleeps; simp [executeRequestAux]
  | succ fuel ih =>
      intro i sleeps
      rcases h : req i with ⟨resp, err⟩
      cases err with
      | none => simp [executeRequestAux, h]
      | some e =>
          cases resp with
          | none =>
              have h2 := hpre i
              rw [h] at h2
              simp at h2
          | some r =>
              by_cases hc : r.statusCode ≠ 403 ∨ r.remaining ≠ 0
              · simp [executeRequestAux, h, hc]
              · simp only [executeRequestAux, h]
                rw [if_neg hc]
                exact ih (i + 1) (sleeps + 1)

theorem execListAux_pages (f : ListOptions → GhResponse) (N : Nat)
    (hlast : ∀ opts, (f opts).lastPage = N) :
    ∀ fuel page, 1 ≤ page → page ≤ N + 1 → N + 2 - page ≤ fuel →
    execListAux (fun opts => (some (f opts), none)) page N fuel =
      ((List.range' page (N + 1 - page)).map (fun p => ⟨p, 100⟩), .ok) := by
  intro fuel
  induction fuel with
  | zero => intro page h1 h2 h3; omega
  | succ fuel ih =>
      intro page h1 h2 h3
      simp only [execListAux]
      by_cases hpg : page > N
      · rw [if_pos hpg]
        have : N + 1 - page = 0 := by omega
        rw [this]
        simp
      · rw [if_neg hpg]
        have hep : execPage (fun opts => (some (f opts), none)) ⟨page, 100⟩
            maxRetryAttempts = ([⟨page, 100⟩], .ok ((f ⟨page, 100⟩).lastPage)) := rfl
        rw [hep, hlast]
        dsimp only
        rw [ih (page + 1) (by omega) (by omega) (by omega)]
        dsimp only
        have e2 : N + 1 - (page + 1) = N - page := by omega
        have e1 : N + 1 - page = (N - page) + 1 := by omega
        rw [e2, e1, List.range'_succ]
        simp

/-! ## Claim theorems -/

/-- C1, counterexample: two comments with equal descriptions, overlapping
locations but different authors (`u` and `v`) are not description-overlapping
and are not merged by `CommentsOverlap`, contradicting the claim that equal
descriptions suffice regardless of the authors. -/
theorem commentDescriptionsOverlap_authors_cex :
    (Comment.mk [] "u".data [] "x".data none).description =
      (Comment.mk [] "v".data [] "x".data none).description ∧
    commentLocationsOverlap (Comment.mk [] "u".data [] "x".data none)
      (Comment.mk [] "v".data [] "x".data none) = true ∧
    commentDescriptionsOverlap (Comment.mk [] "u".data [] "x".data none)
      (Comment.mk [] "v".data [] "x".data none) = false ∧
    CommentsOverlap (Comment.mk [] "u".data [] "x".data none)
      (Comment.mk [] "v".data [] "x".data none) = false := by
  decide

/-- C1 (amended): `commentDescriptionsOverlap` holds exactly when the two
comments have equal authors and equal descriptions, or one description equals
the quoted form `"<author>:\n\n<description>"` of the other; consequently two
comments whose locations overlap and whose descriptions overlap in this sense
are merged as equivalent by `CommentsOverlap`. -/
theorem commentDescriptionsOverlap_characterization (a b : Comment) :
    (commentDescriptionsOverlap a b = true ↔
      ((a.author = b.author ∧ a.description = b.description) ∨
        a.description = quoteComment b ∨ quoteComment a = b.description)) ∧
    (commentLocationsOverlap a b = true → commentDescriptionsOverlap a b = true →
      CommentsOverlap a b = true) := by
  constructor
  · simp [commentDescriptionsOverlap, commentDescriptionsMatch, or_assoc]
  · intro hl hd
    simp [CommentsOverlap, hl, hd]

/-- C1, witness: a review-level comment and an issue comment with the same
author and description overlap (spec scenario S6). -/
theorem commentDescriptionsOverlap_characterization_witness :
    CommentsOverlap (Comment.mk [] "u".data [] "x".data none)
      (Comment.mk "9".data "u".data [] "x".data (some (Location.mk "C1".data [] none)))
      = true :=
  (commentDescriptionsOverlap_characterization _ _).2 (by decide) (by decide)

/-- C2: the write pass (`WriteNewReports` then `WriteNewReviews`, each review
writing its request and then its comments) is idempotent: for every starting
repository state and every fixed fetch result, running it twice back-to-back
produces the same notes as running it once, because every writer appends an
entry only when no present entry at the same ref and commit is equal
(reports), `RequestsOverlap`-equivalent (requests) or
`CommentsOverlap`-equivalent (comments), and those relations are reflexive. -/
theorem writePass_idempotent (m : List (GoStr × List Report)) (rs : List Review)
    (st : RepoState) :
    writePass m rs (writePass m rs st) = writePass m rs st := by
  unfold writePass
  have hrd : reportsDone m (WriteNewReports m st) := WriteNewReports_complete m st
  have hrd2 : reportsDone m (WriteNewReviews rs (WriteNewReports m st)) := by
    intro p hp r hr
    rw [WriteNewReviews_reports]
    exact hrd p hp r hr
  rw [WriteNewReports_noop m _ hrd2]
  exact WriteNewReviews_noop rs _ (WriteNewReviews_complete rs (WriteNewReports m st))

/-- C3: for an issue comment with a user login, a body and both times set,
`ConvertIssueComment` succeeds with timestamp `ConvertTime CreatedAt`
(CreatedAt wins); with exactly one time set that one is used; with neither
the conversion fails with the insufficient-info error. -/
theorem ConvertIssueComment_timestamp (login body : GoStr) (ct ut : Int) :
    (ConvertIssueComment ⟨some ⟨some login⟩, some body, some ct, some ut⟩ =
      .ok ⟨ConvertTime ct, login, [], body, none⟩) ∧
    (ConvertIssueComment ⟨some ⟨some login⟩, some body, some ct, none⟩ =
      .ok ⟨ConvertTime ct, login, [], body, none⟩) ∧
    (ConvertIssueComment ⟨some ⟨some login⟩, some body, none, some ut⟩ =
      .ok ⟨ConvertTime ut, login, [], body, none⟩) ∧
    (ConvertIssueComment ⟨some ⟨some login⟩, some body, none, none⟩ =
      .error .insufficientInfo) :=
  ⟨rfl, rfl, rfl, rfl⟩

/-- C4, counterexample: a two-line hunk whose first line matches the header
pattern with right-hand-side start line 2^63 nevertheless makes
`commentStartLine` fail (the `strconv.Atoi` range error), where the claim
demands a successful start-line computation for every matching first line. -/
theorem commentStartLine_atoi_cex :
    2 ≤ (splitLines "@@ -1 +9223372036854775808 @@\n x".data).length ∧
    findHunkHeader ((splitLines "@@ -1 +9223372036854775808 @@\n x".data).headD [])
      = some "9223372036854775808".data ∧
    commentStartLine "@@ -1 +9223372036854775808 @@\n x".data =
      .error (.atoiRange "9223372036854775808".data) := by
  decide

/-- C4 (amended): for a diff hunk of at least two lines whose first line
matches the pattern and whose right-hand-side start line also fits a signed
64-bit integer, `commentStartLine` returns that start line plus the number of
subsequent hunk lines not beginning with `-`, truncated to 32 bits; the
scenario-S3 hunk yields 14; a hunk of fewer than two lines and a hunk whose
first line does not match the pattern produce errors. -/
theorem commentStartLine_spec (hunk d : GoStr) (rl : Nat)
    (hlen : 2 ≤ (splitLines hunk).length)
    (hmatch : findHunkHeader ((splitLines hunk).headD []) = some d)
    (hval : atoiDigits d = some rl) :
    (commentStartLine hunk =
      .ok ((rl + ((splitLines hunk).drop 1).countP
        (fun l => !("-".data.isPrefixOf l))) % 4294967296)) ∧
    (commentStartLine "@@ -4,6 +10,10 @@ func f()\n a\n b\n-removed\n+new\n+new2".data
      = .ok 14) ∧
    (∀ short : GoStr, (splitLines short).length < 2 →
      commentStartLine short = .error (.insufficientHunk short)) ∧
    (∀ bad : GoStr, 2 ≤ (splitLines bad).length →
      findHunkHeader ((splitLines bad).headD []) = none →
      commentStartLine bad = .error (.malformedHunkLine ((splitLines bad).headD []))) := by
  refine ⟨?_, by decide, ?_, ?_⟩
  · simp only [commentStartLine, if_neg (Nat.not_lt.mpr hlen), hmatch, hval]
  · intro short hlt
    simp only [commentStartLine, if_pos hlt]
  · intro bad hge hm
    simp only [commentStartLine, if_neg (Nat.not_lt.mpr hge), hm]

/-- C4, witness: the amended theorem applied to the scenario-S3 hunk. -/
theorem commentStartLine_spec_witness :
    commentStartLine "@@ -4,6 +10,10 @@ func f()\n a\n b\n-removed\n+new\n+new2".data
      = .ok 14 := by
  rw [(commentStartLine_spec
    "@@ -4,6 +10,10 @@ func f()\n a\n b\n-removed\n+new\n+new2".data
    "10".data 10 (by decide) (by decide) (by decide)).1]
  decide

/-- C5: the live `validate`'s scope check passes exactly when the comma-space
separated scope list contains `repo` and one of `write:repo_hook` or
`admin:repo_hook` — in particular the scope set {repo, admin:repo_hook} is
accepted, and a failing check reports the missing scopes — while the legacy
appspot variant of `validate` wrongly rejects {repo, admin:repo_hook},
reporting `write:repo_hook` as missing. -/
theorem validateScopeCheck_variants :
    (∀ header : GoStr,
      validateScopeCheckLive header = .pass ↔
        ("repo".data ∈ splitCommaSpace header ∧
          ("write:repo_hook".data ∈ splitCommaSpace header ∨
           "admin:repo_hook".data ∈ splitCommaSpace header))) ∧
    validateScopeCheckLive "repo, admin:repo_hook".data = .pass ∧
    validateScopeCheckLive "admin:repo_hook".data = .failMissing "repo".data ∧
    validateScopeCheckLegacy "repo, admin:repo_hook".data =
      .failMissing "write:repo_hook".data :=
  ⟨validateScopeCheckLive_pass_iff, by decide, by decide, by decide⟩

/-- C6: the webhook handler responds 400 on a missing or malformed signature
header and on an empty event header; 500 on a body read failure and on a
repository lookup failure; and when all checks pass it compares the HMAC-SHA1
digest of the raw body keyed by the stored secret with the decoded signature:
on equality it responds 200 and dispatches asynchronously (ping events to the
ping flow, all others to the re-mirror), on any difference it responds 400
with no dispatch. -/
theorem hookHandler_spec (hmac : GoStr → List Nat → List Nat) :
    (∀ req : HookRequest, "sha1=".data.isPrefixOf req.signatureHeader = false →
      hookHandler hmac req = .badRequest) ∧
    (∀ req : HookRequest, (req.signatureHeader.drop 5).isEmpty = true →
      hookHandler hmac req = .badRequest) ∧
    (∀ req : HookRequest, (req.signatureHeader.drop 5).isEmpty = false →
      hexDecode (req.signatureHeader.drop 5) = none →
      hookHandler hmac req = .badRequest) ∧
    (∀ (req : HookRequest) (sig : List Nat),
      "sha1=".data.isPrefixOf req.signatureHeader = true →
      (req.signatureHeader.drop 5).isEmpty = false →
      hexDecode (req.signatureHeader.drop 5) = some sig →
      req.body = none → hookHandler hmac req = .serverError) ∧
    (∀ (req : HookRequest) (sig : List Nat) (content : List Nat),
      "sha1=".data.isPrefixOf req.signatureHeader = true →
      (req.signatureHeader.drop 5).isEmpty = false →
      hexDecode (req.signatureHeader.drop 5) = some sig →
      req.body = some content → req.eventHeader.isEmpty = true →
      hookHandler hmac req = .badRequest) ∧
    (∀ (req : HookRequest) (sig : List Nat) (content : List Nat),
      "sha1=".data.isPrefixOf req.signatureHeader = true →
      (req.signatureHeader.drop 5).isEmpty = false →
      hexDecode (req.signatureHeader.drop 5) = some sig →
      req.body = some content → req.eventHeader.isEmpty = false →
      (splitSlash req.path).length = 4 → req.repoRecord = none →
      hookHandler hmac req = .serverError) ∧
    (∀ (req : HookRequest) (sig : List Nat) (content : List Nat)
        (record : RepoStorageData),
      "sha1=".data.isPrefixOf req.signatureHeader = true →
      (req.signatureHeader.drop 5).isEmpty = false →
      hexDecode (req.signatureHeader.drop 5) = some sig →
      req.body = some content → req.eventHeader.isEmpty = false →
      (splitSlash req.path).length = 4 → req.repoRecord = some record →
      hmac record.hookSecret content = sig →
      hookHandler hmac req =
        (if req.eventHeader = "ping".data then .okPing else .okMirror)) ∧
    (∀ (req : HookRequest) (sig : List Nat) (content : List Nat)
        (record : RepoStorageData),
      "sha1=".data.isPrefixOf req.signatureHeader = true →
      (req.signatureHeader.drop 5).isEmpty = false →
      hexDecode (req.signatureHeader.drop 5) = some sig →
      req.body = some content → req.eventHeader.isEmpty = false →
      (splitSlash req.path).length = 4 → req.repoRecord = some record →
      ¬ hmac record.hookSecret content = sig →
      hookHandler hmac req = .badRequest) := by
  refine ⟨?_, ?_, ?_, ?_, ?_, ?_, ?_, ?_⟩
  · intro req hp
    simp [hookHandler, hp]
  · intro req he
    simp [hookHandler, he]
  · intro req he hd
    cases hp : "sha1=".data.isPrefixOf req.signatureHeader <;>
      simp [hookHandler, hp, he, hd]
  · intro req sig hp he hd hb
    simp [hookHandler, hp, he, hd, hb]
  · intro req sig content hp he hd hb hev
    simp [hookHandler, hp, he, hd, hb, hev]
  · intro req sig content hp he hd hb hev hpath hrec
    simp [hookHandler, hp, he, hd, hb, hev, hpath, hrec]
  · intro req sig content record hp he hd hb hev hpath hrec heq
    simp [hookHandler, hp, he, hd, hb, hev, hpath, hrec, heq]
  · intro req sig content record hp he hd hb hev hpath hrec hne
    simp [hookHandler, hp, he, hd, hb, hev, hpath, hrec, hne]

/-- C6, witness: a delivery whose signature decodes to the digest the keyed
hash produces is accepted and dispatched to the re-mirror. -/
theorem hookHandler_spec_witness :
    hookHandler (fun _ _ => [171])
      ⟨"sha1=ab".data, "push".data, "/hook/o/r".data, some [1, 2],
        some ⟨"s".data⟩⟩ = .okMirror := by
  rw [(hookHandler_spec (fun _ _ => [171])).2.2.2.2.2.2.1
    ⟨"sha1=ab".data, "push".data, "/hook/o/r".data, some [1, 2], some ⟨"s".data⟩⟩
    [171] [1, 2] ⟨"s".data⟩ (by decide) (by decide) (by decide) rfl (by decide)
    (by decide) rfl rfl]
  decide

/-- C7, counterexample: for the base ref `refs/heads` (which the source's
`strings.HasPrefix(ref, "refs/heads")` check accepts as already qualified)
the converted target ref is `refs/heads` itself, which does not begin with
`refs/heads/`, contradicting the claim's universal begins-with-exactly-once
property. -/
theorem ConvertPullRequest_targetRef_cex :
    (ConvertPullRequest ⟨some 4, some ⟨some "u".data⟩,
        some ⟨some "refs/heads".data, some "SHA".data⟩,
        none, none, some 0, none⟩).map Request.targetRef =
      .ok "refs/heads".data ∧
    "refs/heads/".data.isPrefixOf "refs/heads".data = false := by
  constructor
  · rfl
  · decide

/-- C7 (amended): the converted target ref equals the base ref when the base
ref begins with the string `refs/heads` (no trailing slash required, so refs
such as `refs/heads` itself are copied verbatim), and equals
`refs/heads/<ref>` otherwise; for every base ref that does not begin with
`refs/heads`, the result begins with `refs/heads/` exactly once. -/
theorem ConvertPullRequest_targetRef_spec (n : Int) (login sha r : GoStr)
    (title body : Option GoStr) (ct : Int) :
    ((ConvertPullRequest ⟨some n, some ⟨some login⟩, some ⟨some r, some sha⟩,
        title, body, some ct, none⟩).map Request.targetRef =
      .ok (if "refs/heads".data.isPrefixOf r then r
           else "refs/heads/".data ++ r)) ∧
    ("refs/heads".data.isPrefixOf r = false →
      ((ConvertPullRequest ⟨some n, some ⟨some login⟩, some ⟨some r, some sha⟩,
          title, body, some ct, none⟩).map Request.targetRef =
        .ok ("refs/heads/".data ++ r) ∧
       "refs/heads/".data.isPrefixOf ("refs/heads/".data ++ r) = true ∧
       "refs/heads/refs/heads/".data.isPrefixOf ("refs/heads/".data ++ r)
         = false)) := by
  have hbase : (ConvertPullRequest ⟨some n, some ⟨some login⟩,
      some ⟨some r, some sha⟩, title, body, some ct, none⟩).map Request.targetRef =
      .ok (if "refs/heads".data.isPrefixOf r then r
           else "refs/heads/".data ++ r) := rfl
  refine ⟨hbase, fun hp => ?_⟩
  have hcond : ¬ ("refs/heads".data.isPrefixOf r = true) := by simp [hp]
  refine ⟨by rw [hbase, if_neg hcond], ?_, ?_⟩
  · exact List.isPrefixOf_iff_prefix.mpr (List.prefix_append _ _)
  · rw [show ("refs/heads/refs/heads/".data : GoStr) =
        "refs/heads/".data ++ "refs/heads/".data from rfl]
    by_contra hcontra
    rw [Bool.not_eq_false] at hcontra
    have hpref := List.isPrefixOf_iff_prefix.mp hcontra
    rw [List.prefix_append_right_inj] at hpref
    have htr : ("refs/heads".data : GoStr) <+: r :=
      List.IsPrefix.trans (by decide) hpref
    exact hcond ( List.isPrefixOf_iff_prefix.mpr htr)

/-- C7, witness: the amended theorem applied to the scenario-S2 base ref
`dev`. -/
theorem ConvertPullRequest_targetRef_spec_witness :
    (ConvertPullRequest ⟨some 4, some ⟨some "helpful_contributor".data⟩,
        some ⟨some "dev".data, some "ABCDEFG".data⟩, some "Bug fixes.".data,
        some "Fix some bugs.".data, some 0, none⟩).map Request.targetRef =
      .ok "refs/heads/dev".data ∧
    "refs/heads/".data.isPrefixOf "refs/heads/dev".data = true ∧
    "refs/heads/refs/heads/".data.isPrefixOf "refs/heads/dev".data = false := by
  obtain ⟨h1, h2, h3⟩ := (ConvertPullRequest_targetRef_spec 4
    "helpful_contributor".data "ABCDEFG".data "dev".data
    (some "Bug fixes.".data) (some "Fix some bugs.".data) 0).2 (by decide)
  exact ⟨h1, h2, h3⟩

/-- C8: for a callback stub all of whose responses succeed with
`LastPage = N` (and thus never trigger the quota-retry path),
`executeListRequest` invokes the callback exactly once per page 1..N, in
increasing order, each time with `PerPage = 100`, and returns nil. -/
theorem executeListRequest_pages (f : ListOptions → GhResponse) (N fuel : Nat)
    (hN : 1 ≤ N) (hlast : ∀ opts, (f opts).lastPage = N) (hfuel : N + 1 ≤ fuel) :
    executeListRequest (fun opts => (some (f opts), none)) fuel =
      ((List.range' 1 N).map (fun p => ListOptions.mk p 100), .ok) := by
  obtain ⟨fu, rfl⟩ : ∃ fu, fuel = fu + 1 := ⟨fuel - 1, by omega⟩
  unfold executeListRequest
  simp only [execListAux]
  rw [if_neg (by omega : ¬ (1 : Nat) > 1)]
  have hep : execPage (fun opts => (some (f opts), none)) ⟨1, 100⟩
      maxRetryAttempts = ([⟨1, 100⟩], .ok ((f ⟨1, 100⟩).lastPage)) := rfl
  rw [hep, hlast]
  dsimp only
  rw [execListAux_pages f N hlast fu 2 (by omega) (by omega) (by omega)]
  dsimp only
  have e2 : N + 1 - 2 = N - 1 := by omega
  have e1 : N = (N - 1) + 1 := by omega
  rw [e2]
  conv_rhs => rw [e1]
  rw [List.range'_succ]
  simp

/-- C8, witness: a stub reporting `LastPage = 3` is driven through pages
1, 2, 3 with page size 100. -/
theorem executeListRequest_pages_witness :
    executeListRequest (fun _ => (some (GhResponse.mk 200 5000 3), none)) 4 =
      ([ListOptions.mk 1 100, ListOptions.mk 2 100, ListOptions.mk 3 100],
        .ok) := by
  have h := executeListRequest_pages (fun _ => GhResponse.mk 200 5000 3) 3 4
    (by decide) (fun _ => rfl) (by decide)
  exact h.trans (by decide)

/-- C9, counterexample: over a store holding one record in each of the states
Ready, Error, Validating and Hooks Initializing, with an environment in which
the re-run validation succeeds, the sweep performs two Create-hooks
invocations in total (one direct, one chained from `validate`), not exactly
one as claimed; the Validate count is one. -/
theorem restartSweep_cex :
    ((restartAbandonedOperations
        (fun _ => ⟨true, true, ["repo, write:repo_hook".data]⟩)
        [⟨"o1".data, "r1".data, "Ready".data⟩,
         ⟨"o2".data, "r2".data, "Error".data⟩,
         ⟨"o3".data, "r3".data, "Validating".data⟩,
         ⟨"o4".data, "r4".data, "Hooks Initializing".data⟩]).countP
      (fun o => decide (o = SweepOp.createHooksOp)) = 2) ∧
    ((restartAbandonedOperations
        (fun _ => ⟨true, true, ["repo, write:repo_hook".data]⟩)
        [⟨"o1".data, "r1".data, "Ready".data⟩,
         ⟨"o2".data, "r2".data, "Error".data⟩,
         ⟨"o3".data, "r3".data, "Validating".data⟩,
         ⟨"o4".data, "r4".data, "Hooks Initializing".data⟩]).countP
      (fun o => decide (o = SweepOp.validateOp)) = 1) := by
  decide

/-- C9 (amended): over a store holding exactly one record in each of the
states Ready, Error, Validating and Hooks Initializing, the sweep performs
exactly one Validate invocation and no work for the Ready and Error records;
it performs one direct Create-hooks invocation for the Hooks Initializing
record, plus one more chained from the re-run `validate` when that validation
passes its guards — so the total Create-hooks count is two when the re-run
validation passes and one when it does not. -/
theorem restartSweep_spec (env : RepoRecord → ValidateEnv)
    (u1 r1 u2 r2 u3 r3 u4 r4 : GoStr) :
    ((restartAbandonedOperations env
        [⟨u1, r1, "Ready".data⟩, ⟨u2, r2, "Error".data⟩,
         ⟨u3, r3, "Validating".data⟩,
         ⟨u4, r4, "Hooks Initializing".data⟩]).countP
      (fun o => decide (o = SweepOp.validateOp)) = 1) ∧
    (sweepRecordOps env ⟨u1, r1, "Ready".data⟩ = [] ∧
     sweepRecordOps env ⟨u2, r2, "Error".data⟩ = []) ∧
    ((restartAbandonedOperations env
        [⟨u1, r1, "Ready".data⟩, ⟨u2, r2, "Error".data⟩,
         ⟨u3, r3, "Validating".data⟩,
         ⟨u4, r4, "Hooks Initializing".data⟩]).countP
      (fun o => decide (o = SweepOp.createHooksOp)) =
      if validatePasses (env ⟨u3, r3, "Validating".data⟩) then 2 else 1) := by
  have hops : restartAbandonedOperations env
      [⟨u1, r1, "Ready".data⟩, ⟨u2, r2, "Error".data⟩,
       ⟨u3, r3, "Validating".data⟩, ⟨u4, r4, "Hooks Initializing".data⟩] =
      validateInvocations (env ⟨u3, r3, "Validating".data⟩) ++
        [SweepOp.createHooksOp] := rfl
  refine ⟨?_, ⟨rfl, rfl⟩, ?_⟩
  · rw [hops, validateInvocations_eq]
    by_cases hv : validatePasses (env ⟨u3, r3, "Validating".data⟩) = true
    · rw [if_pos hv]; decide
    · rw [if_neg hv]; decide
  · rw [hops, validateInvocations_eq]
    by_cases hv : validatePasses (env ⟨u3, r3, "Validating".data⟩) = true
    · rw [if_pos hv, if_pos hv]; decide
    · rw [if_neg hv, if_neg hv]; decide

/-- C10: `executeRequest` reads `resp.StatusCode` and `resp.Rate.Remaining`
even when the wrapped request returns a non-nil error (so a nil response
paired with a non-nil error is dereferenced), hence it never reaches the
dereference exactly under the precondition that a non-nil error always comes
with a non-nil response; under that precondition, a non-nil error whose
response is not HTTP 403 with zero quota remaining is returned immediately
after the first call, with no sleep and no retry. -/
theorem executeRequest_spec (req : Nat → Option GhResponse × Option GoErr) :
    ((∀ i, (req i).2.isSome = true → (req i).1.isSome = true) →
      (executeRequest req).1 ≠ .nilDeref) ∧
    (∀ (r : GhResponse) (e : GoErr), req 0 = (some r, some e) →
      (r.statusCode ≠ 403 ∨ r.remaining ≠ 0) →
      executeRequest req = (.done (some e), 1, 0)) ∧
    (executeRequest (fun _ => ((none : Option GhResponse), some "boom".data)) =
      (.nilDeref, 1, 0)) := by
  refine ⟨?_, ?_, by decide⟩
  · intro hpre
    exact executeRequestAux_no_nilDeref req hpre maxRetryAttempts 0 0
  · intro r e h0 hcond
    show executeRequestAux req 0 (99 + 1) 0 = _
    rw [executeRequestAux_first req 0 99 0 r e h0 hcond]

/-- C10, witness: a wrapped request failing with HTTP 500 and quota left is
surfaced after exactly one call, with no sleeping. -/
theorem executeRequest_spec_witness :
    executeRequest (fun _ => (some (GhResponse.mk 500 10 0), some "boom".data)) =
      (.done (some "boom".data), 1, 0) :=
  (executeRequest_spec (fun _ => (some (GhResponse.mk 500 10 0),
    some "boom".data))).2.1 (GhResponse.mk 500 10 0) "boom".data rfl (by decide)

end PRMirror
